import Mathlib

/-!
# YOLOX inference plugin: letterbox geometry, slot pool and detection decoding

A shallow embedding of `yolox_inference.cpp` (class `RVC_AI::YoloxInference`).

Conventions of the embedding

* C++ `int` values are `Int`; the frame and network sizes stay far inside the 32-bit range, so
  no wrap-around is modelled.  Integer division is C++ truncating division (`Int.tdiv`).
* `float` / `double` values are rationals (`ℚ`).  The one floating-point result that is
  converted to `int` after an arithmetic step, the `float` difference of line 328-329, is rounded
  to `float` precision (`float32Round`); every other operation is taken without rounding error.
* A call that cannot return a value reports why through `Fault`.
-/

namespace YoloxInference

/-! ## Geometry (`pre_process_image`) -/

/-- The members `m_ratio`, `m_pad_width`, `m_pad_height` of the plugin object. -/
structure GeometryState where
  ratio : ℚ
  padWidth : Int
  padHeight : Int
  deriving DecidableEq, Repr

/-- The effect of `pre_process_image` that later stages can observe: the geometry members and
the size of the image `cv::copyMakeBorder` wrote to `outputImage`. -/
structure PreProcessed where
  geometry : GeometryState
  outCols : Int
  outRows : Int
  deriving DecidableEq, Repr

/-- Lines 195-210 of `pre_process_image`: `m_resX = cols`, `m_resY = rows`, then the branch on
`m_resX > m_resY`.  `netWidth`, `netHeight` are the members of the static `nn_input_size`
(`m_input_shape_x`, `m_input_shape_y`). -/
def computeGeometry (netWidth netHeight : Int) (cols rows : Int) : GeometryState :=
  let m_resX := cols
  let m_resY := rows
  if m_resX > m_resY then
    { padHeight := Int.tdiv (m_resX - m_resY) 2
      padWidth := 0
      ratio := (netWidth : ℚ) / (m_resX : ℚ) }
  else
    { padWidth := Int.tdiv (m_resY - m_resX) 2
      padHeight := 0
      ratio := (netHeight : ℚ) / (m_resY : ℚ) }

/-- The whole of `pre_process_image` on a frame of `cols` columns and `rows` rows:
`cv::copyMakeBorder(input, output, top, bottom, left, right, ...)` is called with
`top = bottom = m_pad_height` and `left = right = m_pad_width`, so the output has
`rows + top + bottom` rows and `cols + left + right` columns. -/
def pre_process_image (netWidth netHeight : Int) (cols rows : Int) : PreProcessed :=
  let g := computeGeometry netWidth netHeight cols rows
  { geometry := g
    outCols := cols + g.padWidth + g.padWidth
    outRows := rows + g.padHeight + g.padHeight }

/-- Modelled from the spec: the forward map `forwardPoint` of section 8, which no function of
the source computes by itself.  It is the effect of the forward path on a pixel position:
`cv::copyMakeBorder` shifts it by the left and top border, the resize to the network input
scales it by `m_ratio`. -/
def forwardPoint (g : GeometryState) (p : ℚ × ℚ) : ℚ × ℚ :=
  ((p.1 + (g.padWidth : ℚ)) * g.ratio, (p.2 + (g.padHeight : ℚ)) * g.ratio)

/-- The inverse map of lines 344-345 of `post_process_image`:
`(x / m_ratio) - m_pad_width`, `(y / m_ratio) - m_pad_height`. -/
def invertPoint (g : GeometryState) (p : ℚ × ℚ) : ℚ × ℚ :=
  (p.1 / g.ratio - (g.padWidth : ℚ), p.2 / g.ratio - (g.padHeight : ℚ))

/-! ## Detection decoding (`post_process_image`) -/

/-- Why a call produced no return value. -/
inductive Fault where
  /-- The call waits on `idleRequestsCV` and nothing in the modelled run wakes it. -/
  | blocks
  /-- The call reads outside a `std::vector`: undefined behaviour. -/
  | undefinedBehaviour
  /-- An exception leaves the function (a failed `CV_Assert` inside OpenCV). -/
  | exception
  deriving DecidableEq, Repr

/-- One row of the `input` matrix of `post_process_image`: columns 0 to 5 as read by
`input.at<float>(r, c)`. -/
structure RawCandidate where
  x1 : ℚ
  y1 : ℚ
  x2 : ℚ
  y2 : ℚ
  confidence : ℚ
  classIndex : ℚ
  deriving DecidableEq, Repr

/-- Integer rectangle `cv::Rect`. -/
structure Rect where
  x : Int
  y : Int
  width : Int
  height : Int
  deriving DecidableEq, Repr

/-- The message `rvc_vision_messages::msg::RotatedBB` with the fields the code assigns. -/
structure RotatedBB where
  cx : ℚ
  cy : ℚ
  width : ℚ
  height : ℚ
  angle : ℚ
  object_id : String
  confidence_level : ℚ
  deriving DecidableEq, Repr

/-- The C++ conversion `(int)v` of a floating value: the fraction is discarded (rounding
toward zero).  The value is taken to lie in the range of `int`, as network coordinates do. -/
def truncToInt (v : ℚ) : Int :=
  if 0 ≤ v then ⌊v⌋ else ⌈v⌉

/-- The C function `round` followed by `static_cast<int>`: nearest integer, halfway cases away
from zero. -/
def roundToInt (v : ℚ) : Int :=
  if 0 ≤ v then ⌊v + 1 / 2⌋ else ⌈v - 1 / 2⌉

/-- Rounding to the nearest integer, ties to the even one (the IEEE 754 default). -/
def roundHalfEven (v : ℚ) : Int :=
  let f := ⌊v⌋
  if v - (f : ℚ) < 1 / 2 then f
  else if 1 / 2 < v - (f : ℚ) then f + 1
  else if f % 2 = 0 then f else f + 1

/-- Binary exponent that fixes the spacing of the `float` values around `v`: `⌊log2 |v|⌋`, and
`-126` in the subnormal range. -/
def float32Exponent (v : ℚ) : Int := max (Int.log 2 |v|) (-126)

/-- The `float` (IEEE 754 binary32) nearest to `v`, ties to even: `v` is rounded to a multiple
of `2 ^ (exponent - 23)`, which leaves a 24-bit significand.  Overflow to infinity (beyond
`2 ^ 128`) is not modelled. -/
def float32Round (v : ℚ) : ℚ :=
  if v = 0 then 0
  else (roundHalfEven (v / 2 ^ (float32Exponent v - 23)) : ℚ) * 2 ^ (float32Exponent v - 23)

/-- The three parallel vectors filled by the first loop of `post_process_image`. -/
structure Kept where
  class_ids : List Int
  confidences : List ℚ
  boxes : List Rect
  deriving DecidableEq, Repr

/-- The rectangle pushed at line 330:
`cv::Rect(cv::Point((int)x, (int)y), cv::Size((int)w, (int)h))`, where lines 328-329 compute
`float w = x2 - x` and `float h = y2 - y` in `float` arithmetic: the exact difference rounded
to `float`. -/
def rectOfRow (row : RawCandidate) : Rect :=
  let x := row.x1
  let y := row.y1
  let w := float32Round (row.x2 - x)
  let h := float32Round (row.y2 - y)
  { x := truncToInt x, y := truncToInt y, width := truncToInt w, height := truncToInt h }

/-- One iteration of the loop at lines 316-335. -/
def filterStep (confidence_threshold : ℚ) (acc : Kept) (row : RawCandidate) : Kept :=
  let chosen_class := roundToInt row.classIndex
  let confidence := row.confidence
  if confidence > confidence_threshold then
    { boxes := acc.boxes ++ [rectOfRow row]
      confidences := acc.confidences ++ [confidence]
      class_ids := acc.class_ids ++ [chosen_class] }
  else acc

/-- The loop at lines 316-335 over all rows of `input`. -/
def filterRows (confidence_threshold : ℚ) (input : List RawCandidate) : Kept :=
  input.foldl (filterStep confidence_threshold) { class_ids := [], confidences := [], boxes := [] }

/-! ### `cv::dnn::NMSBoxes`

OpenCV is a library the plugin links against, its source is not part of the repository.  The
definitions of this section follow its greedy non-maximum suppression (`NMSFast_` with the
default arguments `eta = 1`, `top_k = 0`), which is what section 4.3 step 3 of the
specification describes: sort by descending confidence, stably; select the best remaining
box; drop every box whose overlap with a selected box exceeds the threshold. -/

/-- Area `width * height` of a `cv::Rect`. -/
def Rect.area (r : Rect) : Int := r.width * r.height

/-- Emptiness test `cv::Rect::empty`: `width <= 0 || height <= 0`. -/
def Rect.empty (r : Rect) : Bool := decide (r.width ≤ 0) || decide (r.height ≤ 0)

/-- Intersection `a & b` of two `cv::Rect`. -/
def Rect.inter (a b : Rect) : Rect :=
  if a.empty || b.empty then { x := 0, y := 0, width := 0, height := 0 }
  else
    let x1 := max a.x b.x
    let y1 := max a.y b.y
    let r : Rect :=
      { x := x1, y := y1
        width := min (a.x + a.width) (b.x + b.width) - x1
        height := min (a.y + a.height) (b.y + b.height) - y1 }
    if r.empty then { x := 0, y := 0, width := 0, height := 0 } else r

/-- Jaccard distance `cv::jaccardDistance` of two integer rectangles. -/
def jaccardDistance (a b : Rect) : ℚ :=
  let Aa := a.area
  let Ab := b.area
  if Aa + Ab ≤ 0 then 0
  else
    let Aab : ℚ := ((a.inter b).area : ℚ)
    1 - Aab / ((Aa : ℚ) + (Ab : ℚ) - Aab)

/-- Overlap used by `NMSBoxes` on `cv::Rect`: `1 - jaccardDistance(a, b)`. -/
def rectOverlap (a b : Rect) : ℚ := 1 - jaccardDistance a b

/-- Insertion into a list sorted by descending score, after every entry whose score is not
smaller: repeated over the entries in their original order this is `std::stable_sort` with
`SortScorePairDescend`. -/
def insertDescending (p : ℚ × Nat) : List (ℚ × Nat) → List (ℚ × Nat)
  | [] => [p]
  | q :: qs => if p.1 > q.1 then p :: q :: qs else q :: insertDescending p qs

/-- The pairs `(scores[i], i)` with `scores[i] > threshold`, in index order
(first loop of `GetMaxScoreIndex`). -/
def scoreIndexPairs (scores : List ℚ) (threshold : ℚ) : List (ℚ × Nat) :=
  (scores.zip (List.range scores.length)).filter (fun p => decide (p.1 > threshold))

/-- `GetMaxScoreIndex` with `top_k = 0`: the pairs above the threshold, stably sorted by
descending score. -/
def GetMaxScoreIndex (scores : List ℚ) (threshold : ℚ) : List (ℚ × Nat) :=
  (scoreIndexPairs scores threshold).foldl (fun acc p => insertDescending p acc) []

/-- The inner loop of `NMSFast_`: candidate `idx` is kept when its overlap with every index
already selected is at most the threshold. -/
def nmsKeep (bboxes : List Rect) (nms_threshold : ℚ) (indices : List Nat) (idx : Nat) : Bool :=
  indices.all fun kept_idx =>
    decide (rectOverlap (bboxes.getD idx ⟨0, 0, 0, 0⟩) (bboxes.getD kept_idx ⟨0, 0, 0, 0⟩)
      ≤ nms_threshold)

/-- The outer loop of `NMSFast_` (`eta = 1`, so the threshold never adapts). -/
def NMSFast (bboxes : List Rect) (scores : List ℚ) (score_threshold nms_threshold : ℚ) :
    List Nat :=
  (GetMaxScoreIndex scores score_threshold).foldl
    (fun indices p => if nmsKeep bboxes nms_threshold indices p.2 then indices ++ [p.2] else indices)
    []

/-- Modelled from the spec: greedy NMS of section 4.3 step 3, as OpenCV implements it.
The call `cv::dnn::NMSBoxes(bboxes, scores, score_threshold, nms_threshold, indices)`
first asserts `bboxes.size() == scores.size()`, `score_threshold >= 0` and
`nms_threshold >= 0`, and throws `cv::Exception` when one of them fails. -/
def NMSBoxes (bboxes : List Rect) (scores : List ℚ) (score_threshold nms_threshold : ℚ) :
    Except Fault (List Nat) :=
  if bboxes.length = scores.length ∧ 0 ≤ score_threshold ∧ 0 ≤ nms_threshold then
    .ok (NMSFast bboxes scores score_threshold nms_threshold)
  else .error Fault.exception

/-- The unchecked `class_name_array_param[i]` of line 350 with an `int` index: defined only for
`0 <= i < size()`. -/
def classNameAt (class_name_array_param : List String) (i : Int) : Except Fault String :=
  if i < 0 then .error Fault.undefinedBehaviour
  else
    match class_name_array_param[i.toNat]? with
    | some name => .ok name
    | none => .error Fault.undefinedBehaviour

/-- Body of the loop at lines 340-353 for one NMS index `idx2`. -/
def decodeAt (g : GeometryState) (class_name_array_param : List String) (k : Kept) (idx2 : Nat) :
    Except Fault RotatedBB :=
  match k.boxes[idx2]?, k.confidences[idx2]?, k.class_ids[idx2]? with
  | some box, some conf, some cls =>
    match classNameAt class_name_array_param cls with
    | .ok name =>
      .ok
        { cx := (((box.x : ℚ) + (box.width : ℚ) / 2) / g.ratio) - (g.padWidth : ℚ)
          cy := (((box.y : ℚ) + (box.height : ℚ) / 2) / g.ratio) - (g.padHeight : ℚ)
          width := (box.width : ℚ) / g.ratio
          height := (box.height : ℚ) / g.ratio
          angle := 0
          object_id := name
          confidence_level := conf }
    | .error e => .error e
  | _, _, _ => .error Fault.undefinedBehaviour

/-- The loop at lines 340-353 over the indices NMS returned, in order. -/
def decodeAll (g : GeometryState) (class_name_array_param : List String) (k : Kept) :
    List Nat → Except Fault (List RotatedBB)
  | [] => .ok []
  | idx2 :: rest =>
    match decodeAt g class_name_array_param k idx2 with
    | .error e => .error e
    | .ok bb =>
      match decodeAll g class_name_array_param k rest with
      | .error e => .error e
      | .ok bbs => .ok (bb :: bbs)

/-- The function `post_process_image`: the detections it appends to `rotatedBBList`, in order
(the function then returns `true`).  The frame-rate bookkeeping at lines 355-368 touches no
value modelled here. -/
def post_process_image (g : GeometryState) (confidence_threshold nms_threshold : ℚ)
    (class_name_array_param : List String) (input : List RawCandidate) :
    Except Fault (List RotatedBB) :=
  let k := filterRows confidence_threshold input
  match NMSBoxes k.boxes k.confidences confidence_threshold nms_threshold with
  | .error e => .error e
  | .ok indices => decodeAll g class_name_array_param k indices

/-! ## Request pool (`idleRequests`) and `run_inference_pipeline` -/

/-- An `ov::InferRequest` handle, identified by the order of its creation in `init`. -/
abbrev Slot := Nat

/-- The queue `idleRequests` after the loop at lines 159-162 of `init` with
`nireq` requests: request `i` is pushed in iteration `i`. -/
def init_idleRequests (nireq : Nat) : List Slot :=
  (List.range nireq).foldl (fun idleRequests i => idleRequests ++ [i]) []

/-- Lines 232-235: `idleRequests.front()` then `idleRequests.pop()`; `none` while the queue is
empty (the caller waits at lines 227-230). -/
def popIdle (idleRequests : List Slot) : Option (Slot × List Slot) :=
  match idleRequests with
  | [] => none
  | infer_request :: rest => some (infer_request, rest)

/-- Line 244 in the completion callback: `idleRequests.push(infer_request)`. -/
def pushIdle (idleRequests : List Slot) (infer_request : Slot) : List Slot :=
  idleRequests ++ [infer_request]

/-- The pool as the concurrent calls see it: the idle queue, and for every call that popped a
request whose completion callback has not run yet, the pair of that call and its request. -/
structure PoolState where
  idleRequests : List Slot
  held : List (Nat × Slot)
  deriving DecidableEq, Repr

/-- The two places that change `idleRequests` after `init`. -/
inductive PoolEvent where
  /-- Call `call` of `run_inference_pipeline` passes lines 225-236. -/
  | acquire (call : Nat)
  /-- The completion callback of call `call` runs (lines 241-248) for its request. -/
  | completion (call : Nat) (infer_request : Slot)
  deriving DecidableEq, Repr

/-- State built by `init` for `nireq` requests. -/
def poolInit (nireq : Nat) : PoolState :=
  { idleRequests := init_idleRequests nireq, held := [] }

/-- One step of the pool; `none` when the event cannot happen in that state (an acquiring call
waits while the queue is empty, a call acquires once, and a callback runs only for a request
its call holds). -/
def poolStep (st : PoolState) : PoolEvent → Option PoolState
  | .acquire call =>
    if call ∈ st.held.map Prod.fst then none
    else
      match popIdle st.idleRequests with
      | none => none
      | some (infer_request, rest) =>
        some { idleRequests := rest, held := (call, infer_request) :: st.held }
  | .completion call infer_request =>
    if (call, infer_request) ∈ st.held then
      some { idleRequests := pushIdle st.idleRequests infer_request
             held := st.held.erase (call, infer_request) }
    else none

/-- States the pool can be in after `init` with `nireq` requests. -/
inductive Reachable (nireq : Nat) : PoolState → Prop where
  | init : Reachable nireq (poolInit nireq)
  | step {st st2 : PoolState} (ev : PoolEvent) :
      Reachable nireq st → poolStep st ev = some st2 → Reachable nireq st2

/-- The engine calls inside the `try` block of `run_inference_pipeline`, in program order
(lines 237, 238, 239, 250-252, 254, 256, 257, 260-271). -/
inductive EngineCall where
  | get_output_tensor_boxes
  | get_output_tensor_labels
  | set_callback
  | input_tensor
  | set_input_tensor
  | start_async
  | wait
  /-- Reading the outputs after `wait` returned (`get_shape`, `data<T>()`, lines 260-271). -/
  | read_outputs
  deriving DecidableEq, Repr

/-- An `ov::Tensor`: its shape and its buffer in row-major order. -/
structure Tensor (α : Type) where
  shape : List Nat
  data : List α

/-- What the inference engine does during one call: the first engine call that throws, if any,
and the two output tensors the request holds once execution has completed. -/
structure EngineRun where
  throwsAt : Option EngineCall
  boxes : Tensor ℚ
  labels : Tensor Int

/-- Whether the completion callback has run when the engine throws at the given call: the
engine invokes the callback when an execution it started has finished, with or without an
error; `wait` reports the error of a started execution, and the outputs are read after
`wait` returned.  A throw at an earlier call means no execution was started. -/
def EngineCall.callbackRuns : EngineCall → Bool
  | .wait => true
  | .read_outputs => true
  | _ => false

/-- A `cv::Mat` of `float`, as the list of its rows. -/
abbrev Mat := List (List ℚ)

/-- Row `i` of a buffer read as a matrix with `cols` columns. -/
def bufferRow (cols : Nat) (data : List ℚ) (i : Nat) : List ℚ :=
  (data.drop (i * cols)).take cols

/-- Line 266: `cv::Mat boxes_float(num_boxes, box_attrs, CV_32F, data)`. -/
def boxes_float (num_boxes box_attrs : Nat) (data : List ℚ) : Mat :=
  (List.range num_boxes).map (bufferRow box_attrs data)

/-- Lines 269-277: the `num_labels x 1` matrix holding `static_cast<float>(lbl_ptr[i])`
(class labels are small integers, which `float` represents exactly). -/
def labels_float (num_labels : Nat) (lbl_ptr : List Int) : Mat :=
  (List.range num_labels).map fun i => [((lbl_ptr.getD i 0 : Int) : ℚ)]

/-- Horizontal concatenation `cv::hconcat` of two matrices with the same number of rows. -/
def hconcat (a b : Mat) : Mat :=
  List.zipWith (fun ra rb => ra ++ rb) a b

/-- Line 268: `shape_labels.size() >= 2 ? shape_labels[1] : shape_labels[0]`. -/
def numLabels (shape_labels : List Nat) : Option Nat :=
  if shape_labels.length ≥ 2 then shape_labels[1]? else shape_labels[0]?

/-- The function `run_inference_pipeline` for one call, given the idle queue it finds and the
caller's `outputImage`.  Result: the returned `bool`, the idle queue after the call, and
`outputImage` after the call. -/
def run_inference_pipeline (eng : EngineRun) (idleRequests : List Slot) (outputImage : Mat) :
    Except Fault (Bool × List Slot × Mat) :=
  match popIdle idleRequests with
  | none => .error Fault.blocks
  | some (infer_request, rest) =>
    match eng.throwsAt with
    | some call =>
      -- the `catch` clauses at lines 294-302 return `false`
      if call.callbackRuns then .ok (false, pushIdle rest infer_request, outputImage)
      else .ok (false, rest, outputImage)
    | none =>
      -- the callback ran before `wait` returned
      let idle := pushIdle rest infer_request
      let shape_boxes := eng.boxes.shape
      let shape_labels := eng.labels.shape
      match shape_boxes[1]?, shape_boxes[2]?, numLabels shape_labels with
      | some num_boxes, some box_attrs, some num_labels =>
        let boxes := boxes_float num_boxes box_attrs eng.boxes.data
        let labels := labels_float num_labels eng.labels.data
        if labels.length ≠ boxes.length then .ok (false, idle, outputImage)
        else .ok (true, idle, hconcat boxes labels)
      | _, _, _ => .error Fault.undefinedBehaviour

end YoloxInference

namespace YoloxInference

/-! ## Geometry: theorems -/

theorem computeGeometry_wide (nw nh w h : Int) (hlt : h < w) :
    computeGeometry nw nh w h
      = { ratio := (nw : ℚ) / (w : ℚ), padWidth := 0, padHeight := Int.tdiv (w - h) 2 } := by
  simp [computeGeometry, hlt]

theorem computeGeometry_tall (nw nh w h : Int) (hle : w ≤ h) :
    computeGeometry nw nh w h
      = { ratio := (nh : ℚ) / (h : ℚ), padWidth := Int.tdiv (h - w) 2, padHeight := 0 } := by
  have : ¬ h < w := not_lt.mpr hle
  simp [computeGeometry, this]

theorem tdiv_two_of_nonneg (d : Int) (hd : 0 ≤ d) : Int.tdiv d 2 = d / 2 :=
  Int.tdiv_eq_ediv hd (by decide)

theorem computeGeometry_ratio_pos (s w h : Int) (hw : 1 ≤ w) (hh : 1 ≤ h) (hs : 1 ≤ s) :
    0 < (computeGeometry s s w h).ratio := by
  have hsq : (0 : ℚ) < (s : ℚ) := by exact_mod_cast (by omega : (0 : Int) < s)
  have hwq : (0 : ℚ) < (w : ℚ) := by exact_mod_cast (by omega : (0 : Int) < w)
  have hhq : (0 : ℚ) < (h : ℚ) := by exact_mod_cast (by omega : (0 : Int) < h)
  by_cases hlt : h < w
  · rw [computeGeometry_wide _ _ _ _ hlt]
    exact div_pos hsq hwq
  · rw [computeGeometry_tall _ _ _ _ (not_lt.mp hlt)]
    exact div_pos hsq hhq

/-- C1 (as amended): for a frame of width `w >= 1` and height `h >= 1` and a square network
input of size `s`, `pre_process_image` sets `ratio = s / max(w, h)`, the pad of the longer axis
to 0 and the pad of the shorter axis to `(max(w,h) - min(w,h)) / 2` in integer division; that
pad is non-zero exactly when the two sides differ by at least 2, and both pads are 0 for a
square frame. -/
theorem pre_process_image_geometry (w h s : Int) (hw : 1 ≤ w) (hh : 1 ≤ h) :
    (pre_process_image s s w h).geometry.ratio = (s : ℚ) / ((max w h : Int) : ℚ)
    ∧ (h < w → (pre_process_image s s w h).geometry.padWidth = 0
          ∧ (pre_process_image s s w h).geometry.padHeight = (max w h - min w h) / 2)
    ∧ (w < h → (pre_process_image s s w h).geometry.padHeight = 0
          ∧ (pre_process_image s s w h).geometry.padWidth = (max w h - min w h) / 2)
    ∧ (w = h → (pre_process_image s s w h).geometry.padWidth = 0
          ∧ (pre_process_image s s w h).geometry.padHeight = 0)
    ∧ ((pre_process_image s s w h).geometry.padHeight ≠ 0 ↔ h + 2 ≤ w)
    ∧ ((pre_process_image s s w h).geometry.padWidth ≠ 0 ↔ w + 2 ≤ h) := by
  have hgeo : (pre_process_image s s w h).geometry = computeGeometry s s w h := rfl
  rw [hgeo]
  by_cases hlt : h < w
  · rw [computeGeometry_wide _ _ _ _ hlt, tdiv_two_of_nonneg _ (by omega)]
    have hmax : max w h = w := max_eq_left (le_of_lt hlt)
    have hmin : min w h = h := min_eq_right (le_of_lt hlt)
    simp only [hmax, hmin]
    refine ⟨trivial, fun _ => ⟨trivial, trivial⟩, fun hc => ?_, fun hc => ?_, ?_, ?_⟩
    · omega
    · omega
    · constructor
      · intro hne; omega
      · intro hge; omega
    · constructor
      · intro hne; exact absurd rfl hne
      · intro hge; omega
  · have hle : w ≤ h := not_lt.mp hlt
    rw [computeGeometry_tall _ _ _ _ hle, tdiv_two_of_nonneg _ (by omega)]
    have hmax : max w h = h := max_eq_right hle
    have hmin : min w h = w := min_eq_left hle
    simp only [hmax, hmin]
    refine ⟨trivial, fun hc => ?_, fun _ => ⟨trivial, trivial⟩, fun hc => ?_, ?_, ?_⟩
    · omega
    · subst hc
      simp
    · constructor
      · intro hne; exact absurd rfl hne
      · intro hge; omega
    · constructor
      · intro hne; omega
      · intro hge; omega

/-- C1, witness: the 640x480 frame with a 640x640 network input. -/
theorem pre_process_image_geometry_witness :
    (1 : Int) ≤ 640 ∧ (1 : Int) ≤ 480
    ∧ (pre_process_image 640 640 640 480).geometry.ratio = ((640 : Int) : ℚ) / ((max 640 480 : Int) : ℚ)
    ∧ ((pre_process_image 640 640 640 480).geometry.padHeight ≠ 0 ↔ (480 : Int) + 2 ≤ 640) :=
  ⟨by decide, by decide,
    (pre_process_image_geometry 640 480 640 (by decide) (by decide)).1,
    (pre_process_image_geometry 640 480 640 (by decide) (by decide)).2.2.2.2.1⟩

/-- C1, counterexample: a 641x640 frame is wider than tall, yet its `padHeight` is 0, so
neither pad is non-zero. -/
theorem pre_process_image_geometry_counterexample :
    (640 : Int) < 641
    ∧ (pre_process_image 640 640 641 640).geometry.padHeight = 0
    ∧ (pre_process_image 640 640 641 640).geometry.padWidth = 0 := by
  refine ⟨by decide, ?_, ?_⟩ <;> decide

/-- C10 (as amended): for a frame of width `w >= 1` and height `h >= 1` both pads are
non-negative, the padded frame is `w + 2*padWidth` wide and `h + 2*padHeight` high, its longer
side stays `max(w, h)` and its padded side is `max(w, h) - ((max(w,h) - min(w,h)) mod 2)`: the
padded frame is square exactly when `w - h` is even, and one pixel short of square otherwise. -/
theorem pre_process_image_padded_size (nw nh w h : Int) (hw : 1 ≤ w) (hh : 1 ≤ h) :
    0 ≤ (pre_process_image nw nh w h).geometry.padWidth
    ∧ 0 ≤ (pre_process_image nw nh w h).geometry.padHeight
    ∧ (pre_process_image nw nh w h).outCols = w + 2 * (pre_process_image nw nh w h).geometry.padWidth
    ∧ (pre_process_image nw nh w h).outRows = h + 2 * (pre_process_image nw nh w h).geometry.padHeight
    ∧ (h ≤ w → (pre_process_image nw nh w h).outCols = max w h
          ∧ (pre_process_image nw nh w h).outRows = max w h - (max w h - min w h) % 2)
    ∧ (w ≤ h → (pre_process_image nw nh w h).outRows = max w h
          ∧ (pre_process_image nw nh w h).outCols = max w h - (max w h - min w h) % 2)
    ∧ ((pre_process_image nw nh w h).outCols = (pre_process_image nw nh w h).outRows
          ↔ (w - h) % 2 = 0) := by
  have hw0 : 0 ≤ w := by omega
  have hh0 : 0 ≤ h := by omega
  simp only [pre_process_image]
  by_cases hlt : h < w
  · rw [computeGeometry_wide _ _ _ _ hlt, tdiv_two_of_nonneg _ (by omega)]
    have hmax : max w h = w := max_eq_left (le_of_lt hlt)
    have hmin : min w h = h := min_eq_right (le_of_lt hlt)
    simp only [hmax, hmin]
    refine ⟨le_refl _, by omega, by omega, by omega, fun _ => ⟨by omega, by omega⟩,
      fun hc => by omega, ?_⟩
    constructor <;> intro hc <;> omega
  · have hle : w ≤ h := not_lt.mp hlt
    rw [computeGeometry_tall _ _ _ _ hle, tdiv_two_of_nonneg _ (by omega)]
    have hmax : max w h = h := max_eq_right hle
    have hmin : min w h = w := min_eq_left hle
    simp only [hmax, hmin]
    refine ⟨by omega, le_refl _, by omega, by omega, fun hc => ?_, fun _ => ⟨by omega, by omega⟩, ?_⟩
    · have : w = h := le_antisymm hle hc
      subst this
      simp
    · constructor <;> intro hc <;> omega

/-- C10, witness: the 640x480 frame is padded to 640x640. -/
theorem pre_process_image_padded_size_witness :
    (1 : Int) ≤ 640 ∧ (1 : Int) ≤ 480
    ∧ ((pre_process_image 640 640 640 480).outCols = (pre_process_image 640 640 640 480).outRows
          ↔ ((640 : Int) - 480) % 2 = 0) :=
  ⟨by decide, by decide,
    (pre_process_image_padded_size 640 640 640 480 (by decide) (by decide)).2.2.2.2.2.2⟩

/-- C10, counterexample: a 641x480 frame is padded to 641 columns by 640 rows, which is not
square and whose height is not `max(w, h)`. -/
theorem pre_process_image_padded_size_counterexample :
    (pre_process_image 640 640 641 480).outCols = 641
    ∧ (pre_process_image 640 640 641 480).outRows = 640
    ∧ (pre_process_image 640 640 641 480).outCols ≠ (pre_process_image 640 640 641 480).outRows := by
  refine ⟨?_, ?_, ?_⟩ <;> decide

/-- C9: for every frame size `w, h >= 1`, network size `s >= 1` and point `(x, y)`, the inverse
map of `post_process_image` undoes the forward map (pad, then scale by `ratio`) under the
geometry `pre_process_image` computes, in exact rational arithmetic. -/
theorem invertPoint_forwardPoint (w h s : Int) (hw : 1 ≤ w) (hh : 1 ≤ h) (hs : 1 ≤ s) (x y : ℚ) :
    invertPoint (pre_process_image s s w h).geometry
        (forwardPoint (pre_process_image s s w h).geometry (x, y)) = (x, y) := by
  have hgeo : (pre_process_image s s w h).geometry = computeGeometry s s w h := rfl
  have hpos : (computeGeometry s s w h).ratio ≠ 0 :=
    ne_of_gt (computeGeometry_ratio_pos s w h hw hh hs)
  rw [hgeo]
  simp only [invertPoint, forwardPoint]
  rw [mul_div_assoc, mul_div_assoc, div_self hpos]
  simp

/-- C9, witness: the point (100, 50) of a 640x480 frame with a 416x416 network input. -/
theorem invertPoint_forwardPoint_witness :
    (1 : Int) ≤ 640 ∧ (1 : Int) ≤ 480 ∧ (1 : Int) ≤ 416
    ∧ invertPoint (pre_process_image 416 416 640 480).geometry
        (forwardPoint (pre_process_image 416 416 640 480).geometry (100, 50)) = (100, 50) :=
  ⟨by decide, by decide, by decide,
    invertPoint_forwardPoint 640 480 416 (by decide) (by decide) (by decide) 100 50⟩

/-! ## Float rounding: theorems -/

theorem roundHalfEven_intCast (n : Int) : roundHalfEven (n : ℚ) = n := by
  simp [roundHalfEven]

/-- A value `m * 2 ^ k` with a significand of at most 24 bits and an exponent in the `float`
range is a `float`: rounding leaves it as it is. -/
theorem float32Round_of_representable (m k : Int) (hm : |m| < 2 ^ 24) (hk : -149 ≤ k) :
    float32Round ((m : ℚ) * 2 ^ k) = (m : ℚ) * 2 ^ k := by
  by_cases hm0 : m = 0
  · simp [float32Round, hm0]
  have h2 : (0 : ℚ) < 2 := by norm_num
  have hq0 : (m : ℚ) * 2 ^ k ≠ 0 :=
    mul_ne_zero (by exact_mod_cast hm0) (zpow_ne_zero _ (by norm_num))
  have habs : |(m : ℚ) * 2 ^ k| < ((2 : ℕ) : ℚ) ^ (24 + k) := by
    rw [abs_mul, abs_of_pos (zpow_pos h2 k), Nat.cast_ofNat, zpow_add₀ (by norm_num : (2 : ℚ) ≠ 0)]
    apply mul_lt_mul_of_pos_right _ (zpow_pos h2 k)
    exact_mod_cast hm
  have hlog : Int.log 2 |(m : ℚ) * 2 ^ k| < 24 + k :=
    (Int.lt_zpow_iff_log_lt (by norm_num) (abs_pos.mpr hq0)).mp habs
  have he : float32Exponent ((m : ℚ) * 2 ^ k) ≤ k + 23 := by
    unfold float32Exponent
    exact max_le (by omega) (by omega)
  obtain ⟨n, hn⟩ : ∃ n : ℕ, k - (float32Exponent ((m : ℚ) * 2 ^ k) - 23) = (n : Int) :=
    ⟨(k - (float32Exponent ((m : ℚ) * 2 ^ k) - 23)).toNat, by omega⟩
  have hdiv : (m : ℚ) * 2 ^ k / 2 ^ (float32Exponent ((m : ℚ) * 2 ^ k) - 23)
      = ((m * 2 ^ n : Int) : ℚ) := by
    rw [mul_div_assoc, ← zpow_sub₀ (by norm_num : (2 : ℚ) ≠ 0), hn, zpow_natCast]
    push_cast
    rfl
  simp only [float32Round, hq0, if_false, hdiv, roundHalfEven_intCast]
  push_cast
  rw [mul_assoc, ← zpow_natCast, ← hn, ← zpow_add₀ (by norm_num : (2 : ℚ) ≠ 0)]
  congr 2
  omega

/-- Integers below `2 ^ 24` in magnitude are `float` values. -/
theorem float32Round_intCast (n : Int) (hn : |n| < 2 ^ 24) : float32Round (n : ℚ) = n := by
  simpa using float32Round_of_representable n 0 hn (by decide)

theorem float32Exponent_eq (v : ℚ) (e : Int) (h1 : (2 : ℚ) ^ e ≤ |v|)
    (h2 : |v| < (2 : ℚ) ^ (e + 1)) (he : -126 ≤ e) : float32Exponent v = e := by
  have hpos : 0 < |v| := lt_of_lt_of_le (zpow_pos (by norm_num) e) h1
  have hle : e ≤ Int.log 2 |v| :=
    (Int.zpow_le_iff_le_log (by norm_num) hpos).mp (by simpa using h1)
  have hlt : Int.log 2 |v| < e + 1 :=
    (Int.lt_zpow_iff_log_lt (by norm_num) hpos).mp (by simpa using h2)
  unfold float32Exponent
  rw [max_eq_left (by omega)]
  omega

theorem float32Round_forty : float32Round 40 = 40 := by
  simpa using float32Round_intCast 40 (by decide)

/-- The rounding of the difference is visible in the rectangle: for the `float` values nearest
to 0.7 and 100.7 the exact difference is just below 100, the `float` difference is 100, and
the width pushed at line 330 is 100. -/
theorem rectOfRow_float_difference :
    (rectOfRow { x1 := 11744051 / 16777216, y1 := 0, x2 := 13198950 / 131072, y2 := 2,
                 confidence := 9 / 10, classIndex := 0 }).width = 100
    ∧ truncToInt (13198950 / 131072 - 11744051 / 16777216) = 99 := by
  have he : float32Exponent (13198950 / 131072 - 11744051 / 16777216) = 6 :=
    float32Exponent_eq _ 6 (by norm_num [abs_of_pos]) (by norm_num [abs_of_pos]) (by norm_num)
  constructor
  · simp only [rectOfRow]
    rw [float32Round, he]
    norm_num [roundHalfEven, truncToInt]
  · norm_num [truncToInt]

/-! ## Decoding: theorems -/

/-- C2 (as amended): for a 640x480 frame (width 640, height 480) and a 640x640 network input
`pre_process_image` yields `ratio = 1`, `padWidth = 0`, `padHeight = 80`, and
`post_process_image` on the single candidate (300, 300, 340, 340, 0.9, class 0) with class table
bolt, gear, nut, cube, confidence threshold 0.7 and any NMS threshold `>= 0` emits exactly one
detection, with `cx = 320`, `cy = 240`, `width = height = 40`, `angle = 0`, label bolt and
confidence 0.9. -/
theorem end_to_end_scenario (nms_threshold : ℚ) (hn : 0 ≤ nms_threshold) :
    (pre_process_image 640 640 640 480).geometry = { ratio := 1, padWidth := 0, padHeight := 80 }
    ∧ post_process_image (pre_process_image 640 640 640 480).geometry (7 / 10) nms_threshold
        ["bolt", "gear", "nut", "cube"]
        [{ x1 := 300, y1 := 300, x2 := 340, y2 := 340, confidence := 9 / 10, classIndex := 0 }]
      = .ok [{ cx := 320, cy := 240, width := 40, height := 40, angle := 0,
               object_id := "bolt", confidence_level := 9 / 10 }] := by
  have h : Int.tdiv 160 2 = 80 := by decide
  constructor
  · norm_num [pre_process_image, computeGeometry, h]
  · norm_num [post_process_image, pre_process_image, computeGeometry, filterRows, filterStep,
      NMSBoxes, NMSFast, GetMaxScoreIndex, scoreIndexPairs, insertDescending, nmsKeep, decodeAll,
      decodeAt, classNameAt, rectOfRow, truncToInt, roundToInt, List.range_succ, h, hn,
      float32Round_forty]

/-- C2, witness: the scenario with the default NMS threshold 0.5. -/
theorem end_to_end_scenario_witness :
    (0 : ℚ) ≤ 1 / 2
    ∧ post_process_image (pre_process_image 640 640 640 480).geometry (7 / 10) (1 / 2)
        ["bolt", "gear", "nut", "cube"]
        [{ x1 := 300, y1 := 300, x2 := 340, y2 := 340, confidence := 9 / 10, classIndex := 0 }]
      = .ok [{ cx := 320, cy := 240, width := 40, height := 40, angle := 0,
               object_id := "bolt", confidence_level := 9 / 10 }] :=
  ⟨by norm_num, (end_to_end_scenario (1 / 2) (by norm_num)).2⟩

/-- C2, counterexample: in the scenario `padWidth` is 0 and not 80, `padHeight` is 80 and not
0, and the detection the claim lists (`cx = 240`, `cy = 320`) is not the output. -/
theorem end_to_end_scenario_counterexample :
    (pre_process_image 640 640 640 480).geometry.padWidth ≠ 80
    ∧ (pre_process_image 640 640 640 480).geometry.padHeight ≠ 0
    ∧ post_process_image (pre_process_image 640 640 640 480).geometry (7 / 10) (1 / 2)
        ["bolt", "gear", "nut", "cube"]
        [{ x1 := 300, y1 := 300, x2 := 340, y2 := 340, confidence := 9 / 10, classIndex := 0 }]
      ≠ .ok [{ cx := 240, cy := 320, width := 40, height := 40, angle := 0,
               object_id := "bolt", confidence_level := 9 / 10 }] := by
  have h : Int.tdiv 160 2 = 80 := by decide
  refine ⟨by decide, by decide, ?_⟩
  norm_num [post_process_image, pre_process_image, computeGeometry, filterRows, filterStep,
      NMSBoxes, NMSFast, GetMaxScoreIndex, scoreIndexPairs, insertDescending, nmsKeep, decodeAll,
      decodeAt, classNameAt, rectOfRow, truncToInt, roundToInt, List.range_succ, h,
      float32Round_forty]

/-- The rows that pass the test `confidence > confidence_threshold` of line 324. -/
theorem filterRows_foldl (t : ℚ) (input : List RawCandidate) (acc : Kept) :
    input.foldl (filterStep t) acc
      = { class_ids := acc.class_ids
            ++ (input.filter fun r => decide (t < r.confidence)).map fun r => roundToInt r.classIndex
          confidences := acc.confidences
            ++ (input.filter fun r => decide (t < r.confidence)).map fun r => r.confidence
          boxes := acc.boxes
            ++ (input.filter fun r => decide (t < r.confidence)).map rectOfRow } := by
  induction input generalizing acc with
  | nil => simp
  | cons r rs ih =>
    rw [List.foldl_cons, ih]
    by_cases hr : t < r.confidence
    · simp [filterStep, hr, List.filter_cons]
    · simp [filterStep, hr, List.filter_cons]

theorem filterRows_eq (t : ℚ) (input : List RawCandidate) :
    filterRows t input
      = { class_ids := (input.filter fun r => decide (t < r.confidence)).map
            fun r => roundToInt r.classIndex
          confidences := (input.filter fun r => decide (t < r.confidence)).map fun r => r.confidence
          boxes := (input.filter fun r => decide (t < r.confidence)).map rectOfRow } := by
  simp [filterRows, filterRows_foldl]

theorem filterRows_filter_ne (t : ℚ) (input : List RawCandidate) :
    filterRows t (input.filter fun r => decide (r.confidence ≠ t)) = filterRows t input := by
  have hf : (input.filter fun r => decide (r.confidence ≠ t)).filter
        (fun r => decide (t < r.confidence))
      = input.filter fun r => decide (t < r.confidence) := by
    rw [List.filter_filter]
    congr 1
    funext r
    by_cases hr : t < r.confidence
    · have : r.confidence ≠ t := ne_of_gt hr
      simp [hr, this]
    · simp [hr]
  rw [filterRows_eq, filterRows_eq, hf]

/-- What one iteration of the decoding loop produces for index `idx2` of the kept vectors. -/
theorem decodeAt_filterRows {g : GeometryState} {table : List String} {t : ℚ}
    {input : List RawCandidate} {idx2 : Nat} {bb : RotatedBB}
    (h : decodeAt g table (filterRows t input) idx2 = .ok bb) :
    ∃ row, (input.filter fun r => decide (t < r.confidence))[idx2]? = some row
      ∧ classNameAt table (roundToInt row.classIndex) = .ok bb.object_id
      ∧ bb = { cx := (((rectOfRow row).x : ℚ) + ((rectOfRow row).width : ℚ) / 2) / g.ratio
                  - (g.padWidth : ℚ)
               cy := (((rectOfRow row).y : ℚ) + ((rectOfRow row).height : ℚ) / 2) / g.ratio
                  - (g.padHeight : ℚ)
               width := ((rectOfRow row).width : ℚ) / g.ratio
               height := ((rectOfRow row).height : ℚ) / g.ratio
               angle := 0
               object_id := bb.object_id
               confidence_level := row.confidence } := by
  rw [filterRows_eq] at h
  simp only [decodeAt, List.getElem?_map] at h
  cases hrow : (input.filter fun r => decide (t < r.confidence))[idx2]? with
  | none => simp [hrow] at h
  | some row =>
    refine ⟨row, rfl, ?_⟩
    simp only [hrow, Option.map_some'] at h
    cases hname : classNameAt table (roundToInt row.classIndex) with
    | error e => simp [hname] at h
    | ok name =>
      simp only [hname, Except.ok.injEq] at h
      subst h
      exact ⟨rfl, rfl⟩

theorem decodeAll_forall₂ {g : GeometryState} {table : List String} {k : Kept} :
    ∀ {indices : List Nat} {out : List RotatedBB},
      decodeAll g table k indices = .ok out →
      List.Forall₂ (fun idx2 bb => decodeAt g table k idx2 = .ok bb) indices out
  | [], out, h => by
    simp only [decodeAll, Except.ok.injEq] at h
    subst h
    exact List.Forall₂.nil
  | idx2 :: rest, out, h => by
    simp only [decodeAll] at h
    cases hd : decodeAt g table k idx2 with
    | error e => simp [hd] at h
    | ok bb =>
      cases hr : decodeAll g table k rest with
      | error e => simp [hd, hr] at h
      | ok bbs =>
        simp only [hd, hr, Except.ok.injEq] at h
        subst h
        exact List.Forall₂.cons hd (decodeAll_forall₂ hr)

theorem forall₂_exists_left {α β : Type} {R : α → β → Prop} {l₁ : List α} {l₂ : List β}
    (h : List.Forall₂ R l₁ l₂) : ∀ b ∈ l₂, ∃ a ∈ l₁, R a b := by
  induction h with
  | nil => intro b hb; exact absurd hb (List.not_mem_nil _)
  | cons hab _ ih =>
    intro b hb
    rcases List.mem_cons.mp hb with rfl | hmem
    · exact ⟨_, List.mem_cons_self _ _, hab⟩
    · obtain ⟨a, ha, hr⟩ := ih b hmem
      exact ⟨a, List.mem_cons_of_mem _ ha, hr⟩

theorem post_process_image_ok {g : GeometryState} {t nt : ℚ} {table : List String}
    {input : List RawCandidate} {out : List RotatedBB}
    (h : post_process_image g t nt table input = .ok out) :
    ∃ indices,
      NMSBoxes (filterRows t input).boxes (filterRows t input).confidences t nt = .ok indices
      ∧ List.Forall₂ (fun idx2 bb => decodeAt g table (filterRows t input) idx2 = .ok bb)
          indices out := by
  simp only [post_process_image] at h
  cases hn : NMSBoxes (filterRows t input).boxes (filterRows t input).confidences t nt with
  | error e => simp [hn] at h
  | ok indices =>
    simp only [hn] at h
    exact ⟨indices, rfl, decodeAll_forall₂ h⟩

/-- C4: the rows `post_process_image` hands to NMS are exactly the rows with
`confidence > threshold`, in order; rows whose confidence equals the threshold have no effect
on the result; and every detection emitted has `confidence_level > threshold`. -/
theorem post_process_image_threshold (g : GeometryState) (t nt : ℚ) (table : List String)
    (input : List RawCandidate) :
    filterRows t input
      = { class_ids := (input.filter fun r => decide (t < r.confidence)).map
            fun r => roundToInt r.classIndex
          confidences := (input.filter fun r => decide (t < r.confidence)).map fun r => r.confidence
          boxes := (input.filter fun r => decide (t < r.confidence)).map rectOfRow }
    ∧ (∀ c ∈ (filterRows t input).confidences, t < c)
    ∧ post_process_image g t nt table (input.filter fun r => decide (r.confidence ≠ t))
        = post_process_image g t nt table input
    ∧ ∀ out, post_process_image g t nt table input = .ok out →
        ∀ bb ∈ out, t < bb.confidence_level := by
  refine ⟨filterRows_eq t input, ?_, ?_, ?_⟩
  · intro c hc
    rw [filterRows_eq] at hc
    simp only [List.mem_map, List.mem_filter, decide_eq_true_eq] at hc
    obtain ⟨r, ⟨-, hr⟩, rfl⟩ := hc
    exact hr
  · simp only [post_process_image, filterRows_filter_ne]
  · intro out h bb hbb
    obtain ⟨indices, -, hall⟩ := post_process_image_ok h
    obtain ⟨idx2, -, hd⟩ := forall₂_exists_left hall bb hbb
    obtain ⟨row, hrow, -, hbbeq⟩ := decodeAt_filterRows hd
    have hmem : row ∈ input.filter fun r => decide (t < r.confidence) :=
      List.getElem?_mem hrow
    have hlt : t < row.confidence := by
      simpa using (List.mem_filter.mp hmem).2
    rw [hbbeq]
    exact hlt

/-! ### When `post_process_image` returns -/

theorem mem_insertDescending {p q : ℚ × Nat} {l : List (ℚ × Nat)}
    (h : q ∈ insertDescending p l) : q = p ∨ q ∈ l := by
  induction l with
  | nil => simpa [insertDescending] using h
  | cons a as ih =>
    simp only [insertDescending] at h
    split at h
    · rcases List.mem_cons.mp h with h1 | h1
      · exact Or.inl h1
      · exact Or.inr h1
    · rcases List.mem_cons.mp h with h1 | h1
      · exact Or.inr (h1 ▸ List.mem_cons_self _ _)
      · rcases ih h1 with h2 | h2
        · exact Or.inl h2
        · exact Or.inr (List.mem_cons_of_mem _ h2)

theorem mem_foldl_insertDescending {q : ℚ × Nat} (l acc : List (ℚ × Nat))
    (h : q ∈ l.foldl (fun acc p => insertDescending p acc) acc) : q ∈ acc ∨ q ∈ l := by
  induction l generalizing acc with
  | nil => exact Or.inl h
  | cons a as ih =>
    rw [List.foldl_cons] at h
    rcases ih _ h with h1 | h1
    · rcases mem_insertDescending h1 with h2 | h2
      · exact Or.inr (h2 ▸ List.mem_cons_self _ _)
      · exact Or.inl h2
    · exact Or.inr (List.mem_cons_of_mem _ h1)

theorem GetMaxScoreIndex_index_lt {scores : List ℚ} {threshold : ℚ} {q : ℚ × Nat}
    (h : q ∈ GetMaxScoreIndex scores threshold) : q.2 < scores.length := by
  rcases mem_foldl_insertDescending _ _ h with h1 | h1
  · exact absurd h1 (List.not_mem_nil _)
  · have h2 : q ∈ scores.zip (List.range scores.length) := (List.mem_filter.mp h1).1
    have h3 : q.2 ∈ List.range scores.length := (List.of_mem_zip (a := q.1) (b := q.2) h2).2
    exact List.mem_range.mp h3

theorem mem_foldl_nms {bboxes : List Rect} {nt : ℚ} {i : Nat} (l : List (ℚ × Nat))
    (acc : List Nat)
    (h : i ∈ l.foldl
      (fun indices p => if nmsKeep bboxes nt indices p.2 then indices ++ [p.2] else indices) acc) :
    i ∈ acc ∨ ∃ p ∈ l, p.2 = i := by
  induction l generalizing acc with
  | nil => exact Or.inl h
  | cons a as ih =>
    rw [List.foldl_cons] at h
    rcases ih _ h with h1 | ⟨p, hp, hpi⟩
    · split at h1
      · rcases List.mem_append.mp h1 with h2 | h2
        · exact Or.inl h2
        · exact Or.inr ⟨a, List.mem_cons_self _ _, (List.mem_singleton.mp h2).symm⟩
      · exact Or.inl h1
    · exact Or.inr ⟨p, List.mem_cons_of_mem _ hp, hpi⟩

/-- Every index `NMSBoxes` returns is an index of the score vector. -/
theorem NMSFast_index_lt {bboxes : List Rect} {scores : List ℚ} {st nt : ℚ} {i : Nat}
    (h : i ∈ NMSFast bboxes scores st nt) : i < scores.length := by
  rcases mem_foldl_nms _ _ h with h1 | ⟨p, hp, hpi⟩
  · exact absurd h1 (List.not_mem_nil _)
  · exact hpi ▸ GetMaxScoreIndex_index_lt hp

theorem classNameAt_ok {table : List String} {i : Int} (h0 : 0 ≤ i) (h1 : i < table.length) :
    ∃ name, classNameAt table i = .ok name := by
  have hlt : i.toNat < table.length := by omega
  have hn : ¬ i < 0 := not_lt.mpr h0
  refine ⟨table[i.toNat], ?_⟩
  simp [classNameAt, hn, List.getElem?_eq_getElem hlt]

theorem decodeAll_returns {g : GeometryState} {table : List String} {k : Kept}
    (indices : List Nat) (h : ∀ i ∈ indices, ∃ bb, decodeAt g table k i = .ok bb) :
    ∃ out, decodeAll g table k indices = .ok out := by
  induction indices with
  | nil => exact ⟨[], rfl⟩
  | cons i is ih =>
    obtain ⟨bb, hbb⟩ := h i (List.mem_cons_self _ _)
    obtain ⟨out, hout⟩ := ih fun j hj => h j (List.mem_cons_of_mem _ hj)
    exact ⟨bb :: out, by simp [decodeAll, hbb, hout]⟩

/-- With non-negative thresholds and every row above the confidence threshold carrying a class
index inside the class table, `post_process_image` returns. -/
theorem post_process_image_returns (g : GeometryState) (t nt : ℚ) (table : List String)
    (input : List RawCandidate) (ht : 0 ≤ t) (hnt : 0 ≤ nt)
    (hcls : ∀ r ∈ input, t < r.confidence →
      0 ≤ roundToInt r.classIndex ∧ roundToInt r.classIndex < table.length) :
    ∃ out, post_process_image g t nt table input = .ok out := by
  have hlen : (filterRows t input).boxes.length = (filterRows t input).confidences.length := by
    simp [filterRows_eq]
  have hn : NMSBoxes (filterRows t input).boxes (filterRows t input).confidences t nt
      = .ok (NMSFast (filterRows t input).boxes (filterRows t input).confidences t nt) := by
    simp [NMSBoxes, hlen, ht, hnt]
  simp only [post_process_image, hn]
  apply decodeAll_returns
  intro i hi
  have hi2 : i < (input.filter fun r => decide (t < r.confidence)).length := by
    have := NMSFast_index_lt hi
    simpa [filterRows_eq] using this
  have hmem : (input.filter fun r => decide (t < r.confidence))[i]
      ∈ input.filter fun r => decide (t < r.confidence) := List.getElem_mem _
  obtain ⟨hin, hconf⟩ := List.mem_filter.mp hmem
  have hconf2 : t < ((input.filter fun r => decide (t < r.confidence))[i]).confidence := by
    simpa using hconf
  obtain ⟨h0, h1⟩ := hcls _ hin hconf2
  obtain ⟨name, hname⟩ := classNameAt_ok h0 h1
  rw [filterRows_eq]
  simp [decodeAt, List.getElem?_eq_getElem hi2, hname]

/-- C6: evaluation at the failing input.  With the four-entry class table, the row of class 0
alone is emitted, but together with a second, disjoint row above the threshold whose class
index is 7 the call reads `class_name_array_param[7]` outside the table: it does not return
the in-range detection, it has undefined behaviour. -/
theorem post_process_image_class_out_of_range :
    post_process_image { ratio := 1, padWidth := 0, padHeight := 80 } (7 / 10) (1 / 2)
        ["bolt", "gear", "nut", "cube"]
        [{ x1 := 300, y1 := 300, x2 := 340, y2 := 340, confidence := 9 / 10, classIndex := 0 }]
      = .ok [{ cx := 320, cy := 240, width := 40, height := 40, angle := 0,
               object_id := "bolt", confidence_level := 9 / 10 }]
    ∧ post_process_image { ratio := 1, padWidth := 0, padHeight := 80 } (7 / 10) (1 / 2)
        ["bolt", "gear", "nut", "cube"]
        [{ x1 := 300, y1 := 300, x2 := 340, y2 := 340, confidence := 9 / 10, classIndex := 0 },
         { x1 := 10, y1 := 10, x2 := 50, y2 := 50, confidence := 8 / 10, classIndex := 7 }]
      = .error Fault.undefinedBehaviour := by
  have h7 : Int.toNat 7 = 7 := rfl
  constructor
  · norm_num [post_process_image, filterRows, filterStep, NMSBoxes, NMSFast, GetMaxScoreIndex,
      scoreIndexPairs, insertDescending, nmsKeep, decodeAll, decodeAt, classNameAt, rectOfRow,
      truncToInt, roundToInt, List.range_succ, float32Round_forty]
  · norm_num [post_process_image, filterRows, filterStep, NMSBoxes, NMSFast, GetMaxScoreIndex,
      scoreIndexPairs, insertDescending, nmsKeep, decodeAll, decodeAt, classNameAt, rectOfRow,
      truncToInt, roundToInt, List.range_succ, rectOverlap, jaccardDistance, Rect.area,
      Rect.inter, Rect.empty, h7, float32Round_forty]

/-! ## Pipeline and pool: theorems -/

/-- C5: for a call that finds an idle request and whose engine raises no error, with `n` box
rows (`shape_boxes[1]`), `k` box attributes (`shape_boxes[2]`) and `m` label rows:
if `n != m` the call returns `false` and `outputImage` is left as it was; if `n = m` it returns
`true` and `outputImage` has `n` rows, row `i` being box row `i` followed by label `i`. -/
theorem run_inference_pipeline_rows (eng : EngineRun) (infer_request : Slot) (rest : List Slot)
    (outputImage : Mat) (n k m : Nat)
    (hthrow : eng.throwsAt = none)
    (hn : eng.boxes.shape[1]? = some n) (hk : eng.boxes.shape[2]? = some k)
    (hm : numLabels eng.labels.shape = some m) :
    (n ≠ m →
      run_inference_pipeline eng (infer_request :: rest) outputImage
        = .ok (false, rest ++ [infer_request], outputImage))
    ∧ (n = m →
      ∃ merged : Mat,
        run_inference_pipeline eng (infer_request :: rest) outputImage
          = .ok (true, rest ++ [infer_request], merged)
        ∧ merged.length = n
        ∧ ∀ (i : Nat) (label : Int), i < n → eng.labels.data[i]? = some label →
            merged[i]? = some (bufferRow k eng.boxes.data i ++ [(label : ℚ)])) := by
  constructor
  · intro hne
    have hne2 : ¬ m = n := fun h => hne h.symm
    simp [run_inference_pipeline, popIdle, pushIdle, hthrow, hn, hk, hm, boxes_float,
      labels_float, hne2]
  · intro heq
    subst heq
    refine ⟨hconcat (boxes_float n k eng.boxes.data) (labels_float n eng.labels.data), ?_, ?_, ?_⟩
    · simp [run_inference_pipeline, popIdle, pushIdle, hthrow, hn, hk, hm, boxes_float,
        labels_float]
    · simp [hconcat, boxes_float, labels_float]
    · intro i label hi hlabel
      simp [hconcat, boxes_float, labels_float, List.getElem?_zipWith, List.getElem?_map,
        List.getElem?_range hi, hlabel]

/-- C5, witness: five box rows of five attributes against four labels is a failure that leaves
the caller's (empty) matrix untouched. -/
theorem run_inference_pipeline_rows_witness :
    run_inference_pipeline
        { throwsAt := none
          boxes := { shape := [1, 5, 5], data := List.replicate 25 0 }
          labels := { shape := [1, 4], data := [0, 1, 2, 3] } }
        [0, 1] []
      = .ok (false, [1, 0], []) :=
  (run_inference_pipeline_rows
      { throwsAt := none
        boxes := { shape := [1, 5, 5], data := List.replicate 25 0 }
        labels := { shape := [1, 4], data := [0, 1, 2, 3] } }
      0 [1] [] 5 5 4 rfl rfl rfl rfl).1 (by decide)

/-- The sibling path: when a started execution fails (`wait` rethrows its error) or reading
the outputs throws, the callback has pushed the request back, and the call returns `false`
with the idle queue as long as before. -/
theorem run_inference_pipeline_wait_error (eng : EngineRun) (call : EngineCall)
    (infer_request : Slot) (rest : List Slot) (outputImage : Mat)
    (hthrow : eng.throwsAt = some call)
    (hcall : call = EngineCall.wait ∨ call = EngineCall.read_outputs) :
    run_inference_pipeline eng (infer_request :: rest) outputImage
      = .ok (false, rest ++ [infer_request], outputImage) := by
  rcases hcall with h | h <;> subst h <;>
    simp [run_inference_pipeline, popIdle, pushIdle, hthrow, EngineCall.callbackRuns]

/-- C7: evaluation at the failing inputs.  When an engine call made after the request was
popped and before execution has started throws (`get_output_tensor`, `set_callback`, building
or binding the input tensor, `start_async`), the call returns `false` with the idle queue one
request shorter than before the call: the popped request is never pushed back. -/
theorem run_inference_pipeline_leaks_slot (eng : EngineRun) (call : EngineCall)
    (infer_request : Slot) (rest : List Slot) (outputImage : Mat)
    (hthrow : eng.throwsAt = some call)
    (hcall : call = EngineCall.get_output_tensor_boxes ∨ call = EngineCall.get_output_tensor_labels
      ∨ call = EngineCall.set_callback ∨ call = EngineCall.input_tensor
      ∨ call = EngineCall.set_input_tensor ∨ call = EngineCall.start_async) :
    ∃ idle,
      run_inference_pipeline eng (infer_request :: rest) outputImage
        = .ok (false, idle, outputImage)
      ∧ idle.length + 1 = (infer_request :: rest).length := by
  refine ⟨rest, ?_, rfl⟩
  rcases hcall with h | h | h | h | h | h <;> subst h <;>
    simp [run_inference_pipeline, popIdle, hthrow, EngineCall.callbackRuns]

/-- C7, witness: a model with a single output makes `get_output_tensor(1)` throw; of the two
idle requests one is left after the call. -/
theorem run_inference_pipeline_leaks_slot_witness :
    ∃ idle,
      run_inference_pipeline
          { throwsAt := some EngineCall.get_output_tensor_labels
            boxes := { shape := [], data := [] }
            labels := { shape := [], data := [] } }
          [0, 1] []
        = .ok (false, idle, [])
      ∧ idle.length + 1 = 2 :=
  run_inference_pipeline_leaks_slot
    { throwsAt := some EngineCall.get_output_tensor_labels
      boxes := { shape := [], data := [] }
      labels := { shape := [], data := [] } }
    EngineCall.get_output_tensor_labels 0 [1] [] rfl (Or.inr (Or.inl rfl))

theorem foldl_push (l acc : List Slot) :
    l.foldl (fun idleRequests i => idleRequests ++ [i]) acc = acc ++ l := by
  induction l generalizing acc with
  | nil => simp
  | cons a as ih => rw [List.foldl_cons, ih]; simp

/-- After `init` the idle queue holds the `nireq` requests, each once. -/
theorem init_idleRequests_eq (nireq : Nat) : init_idleRequests nireq = List.range nireq := by
  simp [init_idleRequests, foldl_push]

/-- The idle requests together with the held ones are, up to order, the requests `init`
created; every step keeps it so. -/
theorem reachable_perm {nireq : Nat} {st : PoolState} (h : Reachable nireq st) :
    (st.idleRequests ++ st.held.map Prod.snd).Perm (List.range nireq) := by
  induction h with
  | init => simp [poolInit, init_idleRequests_eq]
  | @step st st2 ev _ hstep ih =>
    cases ev with
    | acquire call =>
      simp only [poolStep] at hstep
      split at hstep
      · exact absurd hstep (by simp)
      · cases hidle : st.idleRequests with
        | nil => simp [popIdle, hidle] at hstep
        | cons s rest =>
          simp only [popIdle, hidle, Option.some.injEq] at hstep
          subst hstep
          rw [hidle] at ih
          simp only [List.map_cons]
          exact (List.perm_middle.trans (List.Perm.refl _)).trans ih
    | completion call s =>
      simp only [poolStep] at hstep
      split at hstep
      · rename_i hmem
        simp only [Option.some.injEq] at hstep
        subst hstep
        have hp : st.held.Perm ((call, s) :: st.held.erase (call, s)) := by
          obtain ⟨l₁, l₂, -, hsplit, herase⟩ := List.exists_erase_eq hmem
          rw [herase]
          nth_rewrite 1 [hsplit]
          exact List.perm_middle
        have hp2 : (st.held.map Prod.snd).Perm (s :: (st.held.erase (call, s)).map Prod.snd) := by
          simpa using hp.map Prod.snd
        simp only [pushIdle, List.append_assoc, List.singleton_append]
        exact ((List.Perm.append_left st.idleRequests hp2).symm).trans ih
      · exact absurd hstep (by simp)

/-- C8: in every state reachable from the state `init` builds with `K` idle requests by
acquire steps (pop from the idle queue when it is non-empty) and completion-callback steps
(push back), no request is both idle and held, no request is held by two calls, at most `K`
requests are held, and idle plus held is `K`. -/
theorem pool_exclusivity (K : Nat) (st : PoolState) (h : Reachable K st) :
    (∀ s, ¬ (s ∈ st.idleRequests ∧ s ∈ st.held.map Prod.snd))
    ∧ (∀ c1 c2 s, (c1, s) ∈ st.held → (c2, s) ∈ st.held → c1 = c2)
    ∧ st.held.length ≤ K
    ∧ st.idleRequests.length + st.held.length = K := by
  have hperm := reachable_perm h
  have hnodup : (st.idleRequests ++ st.held.map Prod.snd).Nodup :=
    hperm.nodup_iff.mpr (List.nodup_range K)
  have hlen : st.idleRequests.length + st.held.length = K := by
    have := hperm.length_eq
    simpa using this
  obtain ⟨-, hheld, hdisj⟩ := List.nodup_append.mp hnodup
  refine ⟨fun s hs => hdisj hs.1 hs.2, ?_, by omega, hlen⟩
  intro c1 c2 s h1 h2
  have hinj := List.inj_on_of_nodup_map hheld h1 h2 rfl
  exact congrArg Prod.fst hinj

/-- C8, witness: with two requests, after call 0 and call 1 acquired and the callback of
call 0 ran. -/
theorem pool_exclusivity_witness :
    Reachable 2 { idleRequests := [0], held := [(1, 1)] }
    ∧ (∀ c1 c2 s, (c1, s) ∈ [((1 : Nat), (1 : Slot))] → (c2, s) ∈ [((1 : Nat), (1 : Slot))] → c1 = c2)
    ∧ [((1 : Nat), (1 : Slot))].length ≤ 2 := by
  have h1 : Reachable 2 { idleRequests := [1], held := [(0, 0)] } :=
    @Reachable.step 2 (poolInit 2) _ (PoolEvent.acquire 0) Reachable.init (by decide)
  have h2 : Reachable 2 { idleRequests := [], held := [(1, 1), (0, 0)] } :=
    @Reachable.step 2 _ _ (PoolEvent.acquire 1) h1 (by decide)
  have hr : Reachable 2 { idleRequests := [0], held := [(1, 1)] } :=
    @Reachable.step 2 _ _ (PoolEvent.completion 0 0) h2 (by decide)
  have h := pool_exclusivity 2 { idleRequests := [0], held := [(1, 1)] } hr
  exact ⟨hr, h.2.1, h.2.2.1⟩

end YoloxInference
